import Mathlib

/-!
Shallow embedding of the streaming text-analysis engine from
`src/wasm/src/` (streaming.rs, analysis/phrases.rs, analysis/pii.rs,
analysis/frequency.rs, analysis/entropy.rs).

Rust `String`/`&str` values are modelled as `List Char` (the sequence of
Unicode scalar values).  Rust string positions are *byte* offsets into the
UTF-8 encoding; they are modelled by `charBytes`/`byteLen` below.  Byte-offset
slicing (`&s[a..b]`), which panics in Rust when an offset is out of range or
not on a character boundary, is modelled by `byteSlice`, which returns `none`
exactly in the panicking cases.  Functions that can reach such a slice return
`Option`, with `none` meaning "the Rust code panics on this input".

Floating-point is modelled exactly: `f64` score/confidence constants are
rationals (`ℚ`) where no transcendental function intervenes (PII confidences),
and real numbers (`ℝ`) where Shannon entropy (`log₂`) flows in
(entropy, risk score, thresholds).
-/

/-- UTF-8 encoded size in bytes of one character (1 to 4). -/
def charBytes (c : Char) : Nat :=
  if c.val ≤ 0x7F then 1 else if c.val ≤ 0x7FF then 2
  else if c.val ≤ 0xFFFF then 3 else 4

/-- Byte length of the UTF-8 encoding of a string, Rust's `str::len`. -/
def byteLen : List Char → Nat
  | [] => 0
  | c :: s => charBytes c + byteLen s

/-- Drop the first `n` bytes of a string: `&s[n..]`.  Returns `none` when `n`
is out of range or not on a character boundary (the Rust panic cases). -/
def byteDrop : List Char → Nat → Option (List Char)
  | s, 0 => some s
  | [], _ + 1 => none
  | c :: s, n + 1 =>
    if n + 1 < charBytes c then none else byteDrop s (n + 1 - charBytes c)

/-- Take the first `n` bytes of a string.  `none` when `n` is out of range or
not a character boundary. -/
def byteTake : List Char → Nat → Option (List Char)
  | _, 0 => some []
  | [], _ + 1 => none
  | c :: s, n + 1 =>
    if n + 1 < charBytes c then none
    else (byteTake s (n + 1 - charBytes c)).map (c :: ·)

/-- Rust slice `&s[a..b]`: `none` exactly when Rust would panic
(`a > b`, an offset out of range, or an offset inside a character). -/
def byteSlice (s : List Char) (a b : Nat) : Option (List Char) :=
  if a ≤ b then (byteDrop s a).bind (fun t => byteTake t (b - a)) else none

/-- Rust `str::find` for a literal pattern: byte offset of the first
occurrence of `needle` in `hay` (occurrences are always char-aligned). -/
def findSub : List Char → List Char → Option Nat
  | hay, needle =>
    if needle.isPrefixOf hay then some 0
    else
      match hay with
      | [] => none
      | c :: rest => (findSub rest needle).map (charBytes c + ·)

/-- Rust `char`-level `to_lowercase`, modelled on the code points used in this
development: exact on ASCII (the `A`-`Z` branch mirrors the Unicode simple
mapping there), `'ẞ'` (U+1E9E) lowercases to `'ß'` (U+00DF), and the
remaining code points appearing here are unchanged by lowercasing. -/
def rustCharLower (c : Char) : List Char :=
  if c = 'ẞ' then ['ß']
  else if 65 ≤ c.toNat ∧ c.toNat ≤ 90 then [Char.ofNat (c.toNat + 32)] else [c]

/-- Rust `str::to_lowercase` (character-wise, possibly length-changing). -/
def rustToLowercase (s : List Char) : List Char := s.flatMap rustCharLower

/-- Rust `char::is_alphanumeric`, modelled on the code points used here:
exact on ASCII; `'ß'`/`'ẞ'` are Unicode letters. -/
def rustIsAlphanumeric (c : Char) : Bool :=
  c.isAlphanum || c = 'ß' || c = 'ẞ'

/-- Rust `char::is_whitespace` restricted to the ASCII whitespace appearing
in this development. -/
def rustIsWhitespace (c : Char) : Bool :=
  c = ' ' || c = '\t' || c = '\n' || c = '\r'

/-- Rust `str::split_whitespace`: maximal runs of non-whitespace characters
(no empty tokens). -/
def splitWhitespaceAux : List Char → List Char → List (List Char)
  | [], acc => if acc = [] then [] else [acc.reverse]
  | c :: rest, acc =>
    if rustIsWhitespace c then
      if acc = [] then splitWhitespaceAux rest []
      else acc.reverse :: splitWhitespaceAux rest []
    else splitWhitespaceAux rest (c :: acc)

def splitWhitespace (s : List Char) : List (List Char) := splitWhitespaceAux s []

/-- Model of `src/wasm/src/types.rs`: one banned-phrase match. -/
structure BannedPhraseMatch where
  phrase : List Char
  position : Nat
  context : List Char
  severity : List Char
deriving DecidableEq

/-- Model of `src/wasm/src/types.rs`: one PII pattern match. -/
structure PIIPattern where
  type_ : List Char
  pattern : List Char
  position : Nat
  confidence : ℚ
deriving DecidableEq

/-- Model of `src/wasm/src/streaming.rs`: configuration for streaming analysis. -/
structure StreamingConfig where
  stopwords : List (List Char)
  entropy_threshold : ℝ
  risk_threshold : ℝ
  max_words : Nat
  banned_phrases : List (List Char)

/-- Model of `StreamingConfig::default()` from `streaming.rs` (the duplicate entry
`"her"` of the source list is kept). -/
noncomputable def defaultConfig : StreamingConfig where
  stopwords :=
    ["the".data, "a".data, "an".data, "and".data, "or".data, "but".data,
     "in".data, "on".data, "at".data, "to".data, "for".data, "of".data,
     "with".data, "by".data, "is".data, "are".data, "was".data, "were".data,
     "be".data, "been".data, "have".data, "has".data, "had".data, "do".data,
     "does".data, "did".data, "will".data, "would".data, "could".data,
     "should".data, "may".data, "might".data, "can".data, "this".data,
     "that".data, "these".data, "those".data, "i".data, "you".data,
     "he".data, "she".data, "it".data, "we".data, "they".data, "me".data,
     "him".data, "her".data, "us".data, "them".data, "my".data, "your".data,
     "his".data, "her".data, "its".data, "our".data, "their".data,
     "mine".data, "yours".data, "hers".data, "ours".data, "theirs".data]
  entropy_threshold := 4.8
  risk_threshold := 0.6
  max_words := 10
  banned_phrases := ["confidential".data, "do not share".data]

/-- Model of `src/wasm/src/streaming.rs`: streaming analysis state. -/
structure StreamingAnalyzer where
  config : StreamingConfig
  word_counts : List (List Char × Nat)
  total_chunks : Nat
  total_content : List Char
  banned_phrase_matches : List BannedPhraseMatch
  pii_patterns : List PIIPattern

/-- Model of `StreamingAnalyzer::new`. -/
def StreamingAnalyzer.new (config : StreamingConfig) : StreamingAnalyzer :=
  ⟨config, [], 0, [], [], []⟩

/-- Model of `StreamingAnalyzer::init`. -/
noncomputable def StreamingAnalyzer.init : StreamingAnalyzer :=
  .new defaultConfig

/-- The `HashMap::entry(word).or_insert(0) += 1` step.  The Rust `HashMap`
has unspecified iteration order; the model fixes it to key-insertion order
(first occurrence appends at the end), which is one refinement of the
unspecified order and is stable under updates, as the real map is. -/
def bumpCount : List (List Char × Nat) → List Char → List (List Char × Nat)
  | [], w => [(w, 1)]
  | (k, v) :: rest, w =>
    if k = w then (k, v + 1) :: rest else (k, v) :: bumpCount rest w

/-- Model of `StreamingAnalyzer::tokenize_text`. -/
def StreamingAnalyzer.tokenize_text (_self : StreamingAnalyzer)
    (text : List Char) : List (List Char) :=
  (((splitWhitespace (rustToLowercase text)).map
      (fun w => w.filter rustIsAlphanumeric)).filter (· ≠ []))

/-- The `while let Some(pos) = chunk_lower[start..].find(phrase)` loop of
`StreamingAnalyzer::detect_banned_phrases_in_chunk`.  `start` is the byte
offset of `rem` inside the lowercased chunk; `chunk` is the original chunk,
sliced for context with offsets computed on the lowercased text — `none`
models the Rust panic when such a slice misses a character boundary.
`fuel` bounds the number of loop iterations; with `fuel = |chunk_lower| + 1`
it is never exhausted for a non-empty phrase (the source loops forever on an
empty phrase; the model stops scanning instead). -/
def scanChunkPhrase (chunk phrase : List Char) :
    Nat → Nat → List Char → Option (List BannedPhraseMatch)
  | 0, _, _ => some []
  | fuel + 1, start, rem =>
    if phrase = [] then some []
    else
      match findSub rem phrase with
      | none => some []
      | some pos =>
        (byteSlice chunk (start + pos - 20)
            (min (start + pos + byteLen phrase + 20) (byteLen chunk))).bind
          (fun ctx =>
            (byteDrop rem (pos + byteLen phrase)).bind (fun rem' =>
              (scanChunkPhrase chunk phrase fuel (start + pos + byteLen phrase)
                  rem').map
                (fun ms =>
                  ⟨phrase, start + pos, ctx, "high".data⟩ :: ms)))

/-- The `for phrase in &self.config.banned_phrases` loop of
`detect_banned_phrases_in_chunk`: matches of the phrases are concatenated in
configuration order; a panic (`none`) in any scan aborts the whole call. -/
def detectChunkLoop (chunk : List Char) :
    List (List Char) → Option (List BannedPhraseMatch)
  | [] => some []
  | p :: ps =>
    let chunk_lower := rustToLowercase chunk
    (scanChunkPhrase chunk p (chunk_lower.length + 1) 0 chunk_lower).bind
      (fun ms => (detectChunkLoop chunk ps).map (fun rest => ms ++ rest))

/-- Model of `StreamingAnalyzer::detect_banned_phrases_in_chunk`.  `none` models a
panic inside the scan. -/
def StreamingAnalyzer.detect_banned_phrases_in_chunk (self : StreamingAnalyzer)
    (chunk : List Char) : Option (List BannedPhraseMatch) :=
  detectChunkLoop chunk self.config.banned_phrases

/-- Word character of the regex crate's `\b` (`\w`), on the code points used
here: alphanumeric or underscore. -/
def isWordChar (c : Char) : Bool := rustIsAlphanumeric c || c = '_'

/-- Model of `\b` between a previous character (`none` = start of text) and the rest
of the text: word-ness changes. -/
def boundaryAt (prev : Option Char) (s : List Char) : Bool :=
  (match prev with | some c => isWordChar c | none => false) !=
  (match s with | c :: _ => isWordChar c | [] => false)

/-- Consume exactly `n` ASCII digits (`\d{n}`), returning the rest. -/
def digitsTake : Nat → List Char → Option (List Char)
  | 0, s => some s
  | n + 1, c :: s => if c.isDigit then digitsTake n s else none
  | _ + 1, [] => none

/-- Trailing `\b` after a match whose final character is `last`. -/
def trailBoundary (last : Char) (rest : List Char) : Bool :=
  isWordChar last !=
  (match rest with | c :: _ => isWordChar c | [] => false)

/-- After consuming the whole pattern, the characters consumed so far are the
first `n` of the original list; trailing `\b` needs the last consumed char. -/
def lastConsumed (s : List Char) (n : Nat) : Char :=
  (s.take n).getLast?.getD ' '

/-- One leftmost-first attempt of `\b\d{3}[-.]?\d{3}[-.]?\d{4}\b` at the head
of `s`, for a fixed choice of optional-separator presence; returns the number
of characters consumed. -/
def phoneTry (s : List Char) (sep1 sep2 : Bool) : Option Nat := do
  let r1 ← digitsTake 3 s
  let r1' ← if sep1 then
      match r1 with
      | c :: r => if c = '-' || c = '.' then some r else none
      | [] => none
    else some r1
  let r2 ← digitsTake 3 r1'
  let r2' ← if sep2 then
      match r2 with
      | c :: r => if c = '-' || c = '.' then some r else none
      | [] => none
    else some r2
  let r3 ← digitsTake 4 r2'
  let len := 10 + (if sep1 then 1 else 0) + (if sep2 then 1 else 0)
  if trailBoundary (lastConsumed s len) r3 then some len else none

/-- Model of `PHONE_PATTERN` matched at the current position (leading `\b` against
`prev`); optional groups are tried present-first, mirroring the regex
engine's backtracking order. -/
def phoneMatchAt (prev : Option Char) (s : List Char) : Option Nat :=
  if boundaryAt prev s then
    [(true, true), (true, false), (false, true), (false, false)].findSome?
      (fun p => phoneTry s p.1 p.2)
  else none

/-- Model of `SSN_PATTERN` (`\b\d{3}-\d{2}-\d{4}\b`) matched at the current position. -/
def ssnMatchAt (prev : Option Char) (s : List Char) : Option Nat :=
  if boundaryAt prev s then do
    let r1 ← digitsTake 3 s
    let r2 ← match r1 with | '-' :: r => some r | _ => none
    let r3 ← digitsTake 2 r2
    let r4 ← match r3 with | '-' :: r => some r | _ => none
    let r5 ← digitsTake 4 r4
    if trailBoundary (lastConsumed s 11) r5 then some 11 else none
  else none

/-- One attempt of `\b\d{4}[- ]?\d{4}[- ]?\d{4}[- ]?\d{4}\b` for a fixed
choice of the three optional separators. -/
def ccTry (s : List Char) (s1 s2 s3 : Bool) : Option Nat := do
  let sep : List Char → Option (List Char) := fun r =>
    match r with
    | c :: rest => if c = '-' || c = ' ' then some rest else none
    | [] => none
  let r1 ← digitsTake 4 s
  let r1' ← if s1 then sep r1 else some r1
  let r2 ← digitsTake 4 r1'
  let r2' ← if s2 then sep r2 else some r2
  let r3 ← digitsTake 4 r2'
  let r3' ← if s3 then sep r3 else some r3
  let r4 ← digitsTake 4 r3'
  let len := 16 + (if s1 then 1 else 0) + (if s2 then 1 else 0) +
    (if s3 then 1 else 0)
  if trailBoundary (lastConsumed s len) r4 then some len else none

/-- Model of `CREDIT_CARD_PATTERN` at the current position, separators tried
present-first in backtracking order. -/
def ccMatchAt (prev : Option Char) (s : List Char) : Option Nat :=
  if boundaryAt prev s then
    [(true, true, true), (true, true, false), (true, false, true),
     (true, false, false), (false, true, true), (false, true, false),
     (false, false, true), (false, false, false)].findSome?
      (fun p => ccTry s p.1 p.2.1 p.2.2)
  else none

/-- Greedy `\d{1,3}`: candidate consumed-lengths in backtracking order
(3 first), paired with the rest. -/
def ipGroupOpts (s : List Char) : List (Nat × List Char) :=
  [3, 2, 1].filterMap (fun n => (digitsTake n s).map (fun r => (n, r)))

/-- Model of `IP_ADDRESS_PATTERN` (`\b\d{1,3}\.\d{1,3}\.\d{1,3}\.\d{1,3}\b`) at the
current position. -/
def ipMatchAt (prev : Option Char) (s : List Char) : Option Nat :=
  if boundaryAt prev s then
    (ipGroupOpts s).findSome? (fun g1 =>
      match g1.2 with
      | '.' :: r1 =>
        (ipGroupOpts r1).findSome? (fun g2 =>
          match g2.2 with
          | '.' :: r2 =>
            (ipGroupOpts r2).findSome? (fun g3 =>
              match g3.2 with
              | '.' :: r3 =>
                (ipGroupOpts r3).findSome? (fun g4 =>
                  let len := g1.1 + 1 + g2.1 + 1 + g3.1 + 1 + g4.1
                  if trailBoundary (lastConsumed s len) g4.2 then some len
                  else none)
              | _ => none)
          | _ => none)
      | _ => none)
  else none

/-- Length of the maximal prefix of `s` in the character class `cls`. -/
def runLen (cls : Char → Bool) : List Char → Nat
  | [] => 0
  | c :: s => if cls c then runLen cls s + 1 else 0

/-- Greedy `[cls]+`: candidate lengths from the maximal run down to 1
(backtracking order), paired with the rest. -/
def plusOpts (cls : Char → Bool) (s : List Char) : List (Nat × List Char) :=
  (List.range (runLen cls s)).reverse.map (fun k => (k + 1, s.drop (k + 1)))

/-- Local-part class `[A-Za-z0-9._%+-]` of `EMAIL_PATTERN` (exact: the regex
class is ASCII-explicit). -/
def emailLocalClass (c : Char) : Bool :=
  c.isAlphanum || c = '.' || c = '_' || c = '%' || c = '+' || c = '-'

/-- Domain class `[A-Za-z0-9.-]`. -/
def emailDomainClass (c : Char) : Bool := c.isAlphanum || c = '.' || c = '-'

/-- TLD class `[A-Z|a-z]` (the source's class literally contains `'|'`). -/
def emailTldClass (c : Char) : Bool := c.isAlpha || c = '|'

/-- Model of `EMAIL_PATTERN`
(`\b[A-Za-z0-9._%+-]+@[A-Za-z0-9.-]+\.[A-Z|a-z]{2,}\b`) at the current
position, greedy groups tried longest-first. -/
def emailMatchAt (prev : Option Char) (s : List Char) : Option Nat :=
  if boundaryAt prev s then
    (plusOpts emailLocalClass s).findSome? (fun g1 =>
      match g1.2 with
      | '@' :: r1 =>
        (plusOpts emailDomainClass r1).findSome? (fun g2 =>
          match g2.2 with
          | '.' :: r2 =>
            ((plusOpts emailTldClass r2).filter (fun g => 2 ≤ g.1)).findSome?
              (fun g3 =>
                let len := g1.1 + 1 + g2.1 + 1 + g3.1
                if trailBoundary (lastConsumed s len) g3.2 then some len
                else none)
          | _ => none)
      | _ => none)
  else none

/-- Model of `PII_REGEX` of `streaming.rs` (`\b\d{9,12}\b`) at the current position:
greedy repetition tried from 12 digits down to 9. -/
def numericMatchAt (prev : Option Char) (s : List Char) : Option Nat :=
  if boundaryAt prev s then
    [12, 11, 10, 9].findSome? (fun n =>
      (digitsTake n s).bind (fun r =>
        if trailBoundary (lastConsumed s n) r then some n else none))
  else none

/-- Model of `Regex::find_iter`: non-overlapping leftmost matches.  `matchAt` returns
the number of characters a match starting here consumes (all matched
characters of the patterns in scope are ASCII, so consumed characters =
consumed bytes).  Emits `(byte offset, matched text)` pairs.  `fuel` bounds
the scan; `|s| + 1` suffices since every step consumes at least one
character. -/
def regexFindIter (matchAt : Option Char → List Char → Option Nat) :
    Nat → Option Char → Nat → List Char → List (Nat × List Char)
  | 0, _, _, _ => []
  | fuel + 1, prev, off, s =>
    match matchAt prev s with
    | some len =>
      let matched := s.take len
      (off, matched) ::
        regexFindIter matchAt fuel
          (match matched.getLast? with | some c => some c | none => prev)
          (off + byteLen matched) (s.drop len)
    | none =>
      match s with
      | [] => []
      | c :: rest => regexFindIter matchAt fuel (some c) (off + charBytes c) rest

def regexFindAll (matchAt : Option Char → List Char → Option Nat)
    (s : List Char) : List (Nat × List Char) :=
  regexFindIter matchAt (s.length + 1) none 0 s

/-- Model of `StreamingAnalyzer::detect_pii_patterns_in_chunk`: every match of the
single numeric regex becomes a `PIIPattern` of type `"numeric"` with fixed
confidence 0.8. -/
def StreamingAnalyzer.detect_pii_patterns_in_chunk (_self : StreamingAnalyzer)
    (chunk : List Char) : List PIIPattern :=
  (regexFindAll numericMatchAt chunk).map
    (fun m => ⟨"numeric".data, m.2, m.1, 0.8⟩)

/-- Model of `StreamingAnalyzer::process_chunk`.  The source always returns `Ok(())`;
`none` models the panic reachable from the phrase scan's context slicing. -/
def StreamingAnalyzer.process_chunk (self : StreamingAnalyzer)
    (chunk : List Char) : Option StreamingAnalyzer :=
  let words := self.tokenize_text chunk
  let wc := words.foldl
    (fun m w => if self.config.stopwords.contains w then m else bumpCount m w)
    self.word_counts
  (self.detect_banned_phrases_in_chunk chunk).map (fun ms =>
    { self with
      total_chunks := self.total_chunks + 1
      total_content := self.total_content ++ chunk
      word_counts := wc
      banned_phrase_matches := self.banned_phrase_matches ++ ms
      pii_patterns :=
        self.pii_patterns ++ self.detect_pii_patterns_in_chunk chunk })

/-- Feed a list of chunks in order (repeated `process_chunk` calls). -/
def processChunks (st : StreamingAnalyzer) :
    List (List Char) → Option StreamingAnalyzer
  | [] => some st
  | c :: cs => (st.process_chunk c).bind (fun st' => processChunks st' cs)

/-- Model of `StreamingAnalyzer::update_config`. -/
def StreamingAnalyzer.update_config (self : StreamingAnalyzer)
    (config : StreamingConfig) : StreamingAnalyzer :=
  { self with config := config }

/-- Comparator of `finalize`'s `sorted_words.sort_by(|a, b| b.1.cmp(&a.1))`
as a non-strict order: `a` may precede `b` iff `a`'s count is at least
`b`'s.  Rust's `sort_by` is stable; `List.insertionSort` with this relation
is the stable sort with the same result. -/
def countDescRel (a b : List Char × Nat) : Prop := b.2 ≤ a.2

instance : DecidableRel countDescRel := fun a b => by
  unfold countDescRel; infer_instance

/-- Model of `src/wasm/src/types.rs`: the analysis result.  `entropy` and
`risk_score` are `f64` in the source, modelled as reals. -/
structure AnalysisResult where
  top_words : List (List Char × Nat)
  banned_phrases : List BannedPhraseMatch
  pii_patterns : List PIIPattern
  entropy : ℝ
  is_obfuscated : Bool
  decision : List Char
  reason : List Char
  risk_score : ℝ

/-- Per-character occurrence counting of `calculate_entropy`
(`HashMap<char, usize>`, modelled in key-insertion order). -/
def bumpCharCount : List (Char × Nat) → Char → List (Char × Nat)
  | [], c => [(c, 1)]
  | (k, v) :: rest, c =>
    if k = c then (k, v + 1) :: rest else (k, v) :: bumpCharCount rest c

/-- Model of `StreamingAnalyzer::calculate_entropy`: Shannon entropy of the
normalized (lowercased, alphanumeric-only) text. -/
noncomputable def StreamingAnalyzer.calculate_entropy
    (_self : StreamingAnalyzer) (text : List Char) : ℝ :=
  let normalized := (rustToLowercase text).filter rustIsAlphanumeric
  if normalized = [] then 0.0
  else
    let total_chars : ℝ := normalized.length
    let char_counts := normalized.foldl (fun m c => bumpCharCount m c) []
    char_counts.foldl
      (fun entropy p =>
        let probability : ℝ := (p.2 : ℝ) / total_chars
        if 0 < probability then entropy - probability * Real.logb 2 probability
        else entropy)
      0.0

/-- Model of `StreamingAnalyzer::calculate_risk_score`. -/
noncomputable def StreamingAnalyzer.calculate_risk_score
    (self : StreamingAnalyzer) (_top_words : List (List Char × Nat))
    (banned_phrases : List BannedPhraseMatch)
    (pii_patterns : List PIIPattern) (entropy : ℝ) : ℝ :=
  let banned_weight : ℝ := 0.4
  let pii_weight : ℝ := 0.3
  let entropy_weight : ℝ := 0.2
  let _size_weight : ℝ := 0.1
  let banned_score : ℝ := if banned_phrases = [] then 0.0 else 1.0
  let pii_score : ℝ := if pii_patterns = [] then 0.0 else 1.0
  let entropy_score : ℝ :=
    if self.config.entropy_threshold < entropy then 1.0
    else entropy / self.config.entropy_threshold
  banned_score * banned_weight + pii_score * pii_weight +
    entropy_score * entropy_weight

/-- Model of `StreamingAnalyzer::generate_reason`. -/
noncomputable def StreamingAnalyzer.generate_reason
    (self : StreamingAnalyzer) (banned_phrases : List BannedPhraseMatch)
    (pii_patterns : List PIIPattern) (entropy : ℝ) : List Char :=
  let reasons : List (List Char) :=
    (if banned_phrases = [] then []
     else ["Found ".data ++ (Nat.repr banned_phrases.length).data ++
       " banned phrase(s)".data]) ++
    (if pii_patterns = [] then []
     else ["Detected ".data ++ (Nat.repr pii_patterns.length).data ++
       " PII pattern(s)".data]) ++
    (if self.config.entropy_threshold < entropy then
       ["High entropy content detected (possible obfuscation)".data]
     else [])
  if reasons = [] then "No security concerns detected".data
  else List.intercalate "; ".data reasons

/-- Model of `StreamingAnalyzer::finalize`.  The sort on word counts compares counts
only (descending); `List.insertionSort` is stable, as Rust's `sort_by` is,
so ties keep map order (modelled as key-insertion order). -/
noncomputable def StreamingAnalyzer.finalize (self : StreamingAnalyzer) :
    Except (List Char) AnalysisResult :=
  if self.total_content = [] then .error "No content processed".data
  else
    let sorted_words := List.insertionSort countDescRel
      (self.word_counts.filter
        (fun p => ! self.config.stopwords.contains p.1))
    let top_words := sorted_words.take self.config.max_words
    let entropy := self.calculate_entropy self.total_content
    let risk_score := self.calculate_risk_score top_words
      self.banned_phrase_matches self.pii_patterns entropy
    let decision :=
      if self.config.risk_threshold ≤ risk_score then "block".data
      else "allow".data
    .ok
      { top_words := top_words
        banned_phrases := self.banned_phrase_matches
        pii_patterns := self.pii_patterns
        entropy := entropy
        is_obfuscated := decide (self.config.entropy_threshold < entropy)
        decision := decision
        reason := self.generate_reason self.banned_phrase_matches
          self.pii_patterns entropy
        risk_score := risk_score }

/-- Model of `src/wasm/src/streaming.rs`: processing statistics. -/
structure ProcessingStats where
  total_chunks : Nat
  total_content_length : Nat
  unique_words : Nat
  banned_phrase_count : Nat
  pii_pattern_count : Nat
deriving DecidableEq

/-- Model of `StreamingAnalyzer::get_stats`. -/
def StreamingAnalyzer.get_stats (self : StreamingAnalyzer) : ProcessingStats :=
  ⟨self.total_chunks, byteLen self.total_content, self.word_counts.length,
   self.banned_phrase_matches.length, self.pii_patterns.length⟩

/-- Model of `src/wasm/src/analysis/phrases.rs`: the fixed phrase catalogue. -/
def BANNED_PHRASES : List (List Char) := ["confidential".data, "do not share".data]

/-- The `while let Some(pos) = text_lower[start..].find(&phrase_lower)` loop
of `detect_banned_phrases`.  The word-boundary check indexes
`text_lower.chars().nth(...)` with *byte* positions (as the source does);
`none` models the panic reachable from slicing the original `text` for
context at byte offsets computed on `text_lower`. -/
def boundaryCharOk : Option Char → Bool
  | none => true
  | some c => ! rustIsAlphanumeric c

def scanTextPhrase (text textLower phraseOrig phraseLower : List Char) :
    Nat → Nat → List Char → Option (List BannedPhraseMatch)
  | 0, _, _ => some []
  | fuel + 1, start, rem =>
    match findSub rem phraseLower with
    | none => some []
    | some pos =>
      if boundaryCharOk (if 0 < start + pos then
            textLower.get? (start + pos - 1) else none) &&
          boundaryCharOk (textLower.get? (start + pos + byteLen phraseOrig))
      then
        (byteSlice text (start + pos - 20)
            (min (start + pos + byteLen phraseOrig + 20) (byteLen text))).bind
          (fun ctx =>
            (byteSlice textLower (start + pos)
                (start + pos + byteLen phraseOrig)).bind (fun seg =>
              (byteDrop rem (pos + 1)).bind (fun rem' =>
                (scanTextPhrase text textLower phraseOrig phraseLower fuel
                    (start + pos + 1) rem').map
                  (fun ms =>
                    ⟨phraseOrig, start + pos, ctx,
                      if seg = phraseLower then "high".data
                      else "medium".data⟩ :: ms))))
      else
        (byteDrop rem (pos + 1)).bind (fun rem' =>
          scanTextPhrase text textLower phraseOrig phraseLower fuel
            (start + pos + 1) rem')

/-- The `for phrase in BANNED_PHRASES` loop of `detect_banned_phrases`. -/
def detectTextLoop (text : List Char) :
    List (List Char) → Option (List BannedPhraseMatch)
  | [] => some []
  | p :: ps =>
    let text_lower := rustToLowercase text
    (scanTextPhrase text text_lower p (rustToLowercase p)
        (text_lower.length + 1) 0 text_lower).bind
      (fun ms => (detectTextLoop text ps).map (fun rest => ms ++ rest))

/-- Model of `src/wasm/src/analysis/phrases.rs::detect_banned_phrases`.  `none`
models a panic in context extraction. -/
def detect_banned_phrases (text : List Char) :
    Option (List BannedPhraseMatch) :=
  detectTextLoop text BANNED_PHRASES

/-- Model of `src/wasm/src/analysis/pii.rs::calculate_phone_confidence`. -/
def calculate_phone_confidence (phone : List Char) : ℚ :=
  let digits := phone.filter Char.isDigit
  if digits.length = 10 then
    if phone.contains '-' || phone.contains '.' then 0.9 else 0.8
  else 0.6

/-- The digit loop of `luhn_check` (digits scanned in reverse, every second
one doubled with digit-sum reduction). -/
def luhnAux : List Char → Bool → Nat → Nat
  | [], _, sum => sum
  | c :: rest, alternate, sum =>
    if c.isDigit then
      let num0 := c.toNat - 48
      let num :=
        if alternate then
          let d := num0 * 2
          if 9 < d then d % 10 + 1 else d
        else num0
      luhnAux rest (! alternate) (sum + num)
    else luhnAux rest alternate sum

/-- Model of `src/wasm/src/analysis/pii.rs::luhn_check`. -/
def luhn_check (digits : List Char) : Bool :=
  luhnAux digits.reverse false 0 % 10 = 0

/-- Model of `src/wasm/src/analysis/pii.rs::calculate_credit_card_confidence`. -/
def calculate_credit_card_confidence (card : List Char) : ℚ :=
  let digits := card.filter Char.isDigit
  if digits.length = 16 then
    if luhn_check digits then 0.95 else 0.7
  else 0.5

/-- Rust `str::split('.')` (empty tokens kept). -/
def splitDotAux : List Char → List Char → List (List Char)
  | [], acc => [acc.reverse]
  | c :: rest, acc =>
    if c = '.' then acc.reverse :: splitDotAux rest []
    else splitDotAux rest (c :: acc)

/-- Rust `octet.parse::<u8>().is_ok()`: optional `+` sign, at least one
digit, value at most 255. -/
def parseU8Ok (tok : List Char) : Bool :=
  let body := match tok with | '+' :: r => r | _ => tok
  body ≠ [] && body.all Char.isDigit &&
    body.foldl (fun n c => n * 10 + (c.toNat - 48)) 0 ≤ 255

/-- Model of `src/wasm/src/analysis/pii.rs::is_valid_ip_address`. -/
def is_valid_ip_address (ip : List Char) : Bool :=
  (splitDotAux ip []).all parseU8Ok

/-- Model of `src/wasm/src/analysis/pii.rs::detect_pii_patterns`: the five typed
detectors applied in source order, results concatenated. -/
def detect_pii_patterns (text : List Char) : List PIIPattern :=
  ((regexFindAll phoneMatchAt text).map
    (fun m => ⟨"phone".data, m.2, m.1, calculate_phone_confidence m.2⟩)) ++
  ((regexFindAll ssnMatchAt text).map
    (fun m => ⟨"ssn".data, m.2, m.1, 0.95⟩)) ++
  ((regexFindAll ccMatchAt text).map
    (fun m => ⟨"credit_card".data, m.2, m.1,
      calculate_credit_card_confidence m.2⟩)) ++
  (((regexFindAll ipMatchAt text).filter
      (fun m => is_valid_ip_address m.2)).map
    (fun m => ⟨"ip_address".data, m.2, m.1, 0.9⟩)) ++
  ((regexFindAll emailMatchAt text).map
    (fun m => ⟨"email".data, m.2, m.1, 0.85⟩))

/-- Rust `String` comparison (`a.0.cmp(&b.0)` ≤): lexicographic on
code points, which equals the byte-wise UTF-8 order Rust uses. -/
def charListLe : List Char → List Char → Bool
  | [], _ => true
  | _ :: _, [] => false
  | a :: s, b :: t =>
    if a < b then true else if b < a then false else charListLe s t

/-- Comparator of `analyze_word_frequency`'s
`sort_by(b.1.cmp(&a.1).then(a.0.cmp(&b.0)))` as a non-strict order:
count descending, ties by ascending token.  This order is total and
antisymmetric on distinct keys, so any sort produces the same list. -/
def freqRel (a b : List Char × Nat) : Prop :=
  b.2 < a.2 ∨ (b.2 = a.2 ∧ charListLe a.1 b.1 = true)

instance : DecidableRel freqRel := fun a b => by
  unfold freqRel; infer_instance

/-- Model of `src/wasm/src/analysis/frequency.rs::analyze_word_frequency`. -/
def analyze_word_frequency (text : List Char) (max_words : Nat) :
    List (List Char × Nat) :=
  let text_lower := rustToLowercase text
  let words := (splitWhitespace text_lower).filter (· ≠ [])
  let word_counts := words.foldl
    (fun m w =>
      let clean_word := w.filter rustIsAlphanumeric
      if clean_word = [] then m else bumpCount m clean_word)
    []
  (List.insertionSort freqRel word_counts).take max_words

/-! ### Basic lemmas about the byte model and the analyzer state -/

lemma charBytes_pos (c : Char) : 0 < charBytes c := by
  unfold charBytes; split <;> [norm_num; split <;> [norm_num; split <;> norm_num]]

lemma byteLen_append (a b : List Char) :
    byteLen (a ++ b) = byteLen a + byteLen b := by
  induction a with
  | nil => simp [byteLen]
  | cons c s ih => simp [byteLen, ih]; ring

lemma byteLen_eq_zero (s : List Char) : byteLen s = 0 ↔ s = [] := by
  cases s with
  | nil => simp [byteLen]
  | cons c t =>
    simp only [byteLen]
    constructor
    · intro h
      have := charBytes_pos c
      omega
    · intro h; exact absurd h (by simp)

lemma byteDrop_byteLen {s : List Char} {n : Nat} {s' : List Char}
    (h : byteDrop s n = some s') : n + byteLen s' = byteLen s := by
  induction s generalizing n with
  | nil =>
    cases n with
    | zero => simp [byteDrop] at h; simp [h]
    | succ m => simp [byteDrop] at h
  | cons c t ih =>
    cases n with
    | zero => simp [byteDrop] at h; simp [h]
    | succ m =>
      simp only [byteDrop] at h
      split at h
      · exact absurd h (by simp)
      · have hle : charBytes c ≤ m + 1 := by omega
        have := ih h
        simp only [byteLen]
        omega

lemma exists_of_isPrefixOf {a : List Char} :
    ∀ {b : List Char}, a.isPrefixOf b = true → ∃ t, b = a ++ t := by
  induction a with
  | nil => intro b _; exact ⟨b, rfl⟩
  | cons x s ih =>
    intro b h
    cases b with
    | nil => exact absurd h (by simp [List.isPrefixOf])
    | cons y t =>
      simp only [List.isPrefixOf, Bool.and_eq_true, beq_iff_eq] at h
      rcases ih h.2 with ⟨u, hu⟩
      exact ⟨u, by rw [h.1, hu]; rfl⟩

lemma findSub_bound {hay needle : List Char} {p : Nat}
    (h : findSub hay needle = some p) :
    p + byteLen needle ≤ byteLen hay := by
  induction hay generalizing p with
  | nil =>
    unfold findSub at h
    split at h
    · rename_i hpre
      rcases exists_of_isPrefixOf hpre with ⟨t, ht⟩
      simp only [Option.some.injEq] at h
      subst h
      rw [ht, byteLen_append]
      omega
    · simp at h
  | cons c rest ih =>
    unfold findSub at h
    split at h
    · rename_i hpre
      rcases exists_of_isPrefixOf hpre with ⟨t, ht⟩
      simp only [Option.some.injEq] at h
      subst h
      rw [ht, byteLen_append]
      omega
    · rcases Option.map_eq_some'.mp h with ⟨p', hp', rfl⟩
      have := ih hp'
      simp only [byteLen]
      omega

/-- Unpacking one successful `process_chunk` call into its field updates. -/
lemma process_chunk_spec {st : StreamingAnalyzer} {c : List Char}
    {st' : StreamingAnalyzer} (h : st.process_chunk c = some st') :
    ∃ ms, st.detect_banned_phrases_in_chunk c = some ms ∧
      st'.config = st.config ∧
      st'.total_chunks = st.total_chunks + 1 ∧
      st'.total_content = st.total_content ++ c ∧
      st'.banned_phrase_matches = st.banned_phrase_matches ++ ms ∧
      st'.pii_patterns =
        st.pii_patterns ++ st.detect_pii_patterns_in_chunk c ∧
      st'.word_counts = (st.tokenize_text c).foldl
        (fun m w =>
          if st.config.stopwords.contains w then m else bumpCount m w)
        st.word_counts := by
  unfold StreamingAnalyzer.process_chunk at h
  rcases Option.map_eq_some'.mp h with ⟨ms, hms, hst⟩
  subst hst
  exact ⟨ms, hms, rfl, rfl, rfl, rfl, rfl, rfl⟩

/-- Accumulated content is the concatenation of the successfully processed
chunks, wherever the run starts. -/
lemma processChunks_content {st : StreamingAnalyzer}
    {chunks : List (List Char)} {st' : StreamingAnalyzer}
    (h : processChunks st chunks = some st') :
    st'.total_content = st.total_content ++ chunks.flatten ∧
    st'.total_chunks = st.total_chunks + chunks.length ∧
    st'.config = st.config := by
  induction chunks generalizing st with
  | nil =>
    simp only [processChunks, Option.some.injEq] at h
    subst h; simp
  | cons c cs ih =>
    simp only [processChunks, Option.bind_eq_some] at h
    rcases h with ⟨st1, h1, h2⟩
    rcases process_chunk_spec h1 with ⟨ms, _, hcfg, hchunks, hcontent, _, _, _⟩
    rcases ih h2 with ⟨hc, hn, hcf⟩
    refine ⟨?_, ?_, ?_⟩
    · rw [hc, hcontent]; simp [List.flatten]
    · rw [hn, hchunks]; simp [List.length]; omega
    · rw [hcf, hcfg]

/-- Every match produced by the per-chunk phrase scan carries the scanned
phrase and a byte position bounded by the lowercased chunk itself (the scan
never sees the accumulated stream). -/
lemma scanChunkPhrase_mem (chunk phrase : List Char) :
    ∀ fuel start rem ms, scanChunkPhrase chunk phrase fuel start rem = some ms →
      ∀ m ∈ ms, m.phrase = phrase ∧
        m.position + byteLen phrase ≤ start + byteLen rem := by
  intro fuel
  induction fuel with
  | zero =>
    intro start rem ms h m hm
    simp only [scanChunkPhrase, Option.some.injEq] at h
    subst h; simp at hm
  | succ f ih =>
    intro start rem ms h m hm
    simp only [scanChunkPhrase] at h
    split at h
    · simp only [Option.some.injEq] at h; subst h; simp at hm
    · cases hfind : findSub rem phrase with
      | none =>
        rw [hfind] at h
        simp only [Option.some.injEq] at h; subst h; simp at hm
      | some pos =>
        rw [hfind] at h
        dsimp only at h
        rcases Option.bind_eq_some.mp h with ⟨ctx, hbs, h2⟩
        rcases Option.bind_eq_some.mp h2 with ⟨rem', hbd, h3⟩
        rcases Option.map_eq_some'.mp h3 with ⟨ms', hms', hcons⟩
        have hfb := findSub_bound hfind
        have hdb := byteDrop_byteLen hbd
        subst hcons
        rcases List.mem_cons.mp hm with hm1 | hm2
        · subst hm1
          refine ⟨rfl, ?_⟩
          simp only
          omega
        · have hrec := ih _ _ _ hms' m hm2
          exact ⟨hrec.1, by omega⟩

/-- Matches of the whole per-chunk detection: phrase from the configured
list, position chunk-local. -/
lemma detectChunkLoop_mem (chunk : List Char) :
    ∀ ps ms, detectChunkLoop chunk ps = some ms →
      ∀ m ∈ ms, m.phrase ∈ ps ∧
        m.position + byteLen m.phrase ≤ byteLen (rustToLowercase chunk) := by
  intro ps
  induction ps with
  | nil =>
    intro ms h m hm
    simp only [detectChunkLoop, Option.some.injEq] at h
    subst h; simp at hm
  | cons p rest ih =>
    intro ms h m hm
    simp only [detectChunkLoop] at h
    rcases Option.bind_eq_some.mp h with ⟨ms1, h1, h2⟩
    rcases Option.map_eq_some'.mp h2 with ⟨ms2, hms2, happ⟩
    subst happ
    rcases List.mem_append.mp hm with hmem | hmem
    · have hs := scanChunkPhrase_mem chunk p _ _ _ _ h1 m hmem
      refine ⟨by rw [hs.1]; exact List.mem_cons_self p rest, ?_⟩
      rw [hs.1]
      have := hs.2
      simpa using this
    · have hr := ih _ hms2 m hmem
      exact ⟨List.mem_cons_of_mem p hr.1, hr.2⟩

/-- Claim C1: splitting a stream across the middle of a banned-phrase
occurrence and feeding the two chunks to `process_chunk` does NOT report the
match: the per-chunk scan finds nothing in either chunk, while the unsplit
stream yields exactly one match at (chunk-local) position 8.  This refutes
the claim's cross-chunk detection and its "global stream offset" part in one
run. -/
theorem C1_counterexample :
    (processChunks (StreamingAnalyzer.new defaultConfig)
        ["this is confi".data, "dential".data]).map
      (fun st => st.banned_phrase_matches) = some [] ∧
    (processChunks (StreamingAnalyzer.new defaultConfig)
        ["this is confidential".data]).map
      (fun st => st.banned_phrase_matches) =
      some [⟨"confidential".data, 8, "this is confidential".data,
        "high".data⟩] ∧
    ([] : List BannedPhraseMatch) ≠
      [⟨"confidential".data, 8, "this is confidential".data, "high".data⟩] := by
  refine ⟨rfl, rfl, by decide⟩

/-- Claim C1 (amended): `process_chunk` scans each chunk in isolation and
appends the chunk's matches to the accumulated list; every reported match
carries a chunk-local byte offset — bounded by the lowercased chunk's byte
length no matter how much stream preceded the chunk — and an occurrence
straddling a chunk boundary is missed entirely (see the counterexample). -/
theorem C1_amended (st : StreamingAnalyzer) (chunk : List Char)
    (st' : StreamingAnalyzer) (h : st.process_chunk chunk = some st') :
    ∃ ms, st.detect_banned_phrases_in_chunk chunk = some ms ∧
      st'.banned_phrase_matches = st.banned_phrase_matches ++ ms ∧
      ∀ m ∈ ms, m.phrase ∈ st.config.banned_phrases ∧
        m.position + byteLen m.phrase ≤ byteLen (rustToLowercase chunk) := by
  rcases process_chunk_spec h with ⟨ms, hms, _, _, _, hb, _, _⟩
  refine ⟨ms, hms, hb, ?_⟩
  have := detectChunkLoop_mem chunk st.config.banned_phrases ms hms
  exact this

/-- Claim C1 witness: the amended theorem applied to a concrete single-chunk
run. -/
theorem C1_witness :
    ((StreamingAnalyzer.new defaultConfig).process_chunk "cd".data =
      some ⟨defaultConfig, [("cd".data, 1)], 1, "cd".data, [], []⟩) ∧
    (∃ ms, (StreamingAnalyzer.new defaultConfig).detect_banned_phrases_in_chunk
        "cd".data = some ms ∧
      (⟨defaultConfig, [("cd".data, 1)], 1, "cd".data, [],
        []⟩ : StreamingAnalyzer).banned_phrase_matches =
        (StreamingAnalyzer.new defaultConfig).banned_phrase_matches ++ ms ∧
      ∀ m ∈ ms, m.phrase ∈
          (StreamingAnalyzer.new defaultConfig).config.banned_phrases ∧
        m.position + byteLen m.phrase ≤ byteLen (rustToLowercase "cd".data)) :=
  ⟨rfl, C1_amended _ _ _ rfl⟩

/-- Unpacking a successful `finalize` into its field equations. -/
lemma finalize_ok {st : StreamingAnalyzer} {r : AnalysisResult}
    (h : st.finalize = Except.ok r) :
    st.total_content ≠ [] ∧
    r.top_words = (List.insertionSort countDescRel
      (st.word_counts.filter
        (fun p => ! st.config.stopwords.contains p.1))).take
      st.config.max_words ∧
    r.banned_phrases = st.banned_phrase_matches ∧
    r.pii_patterns = st.pii_patterns ∧
    r.entropy = st.calculate_entropy st.total_content ∧
    r.risk_score = st.calculate_risk_score r.top_words
      st.banned_phrase_matches st.pii_patterns r.entropy ∧
    r.decision = (if st.config.risk_threshold ≤ r.risk_score then
      "block".data else "allow".data) := by
  unfold StreamingAnalyzer.finalize at h
  split at h
  · exact absurd h (by simp)
  · rename_i hne
    simp only [Except.ok.injEq] at h
    subst h
    exact ⟨hne, rfl, rfl, rfl, rfl, rfl, rfl⟩

/-- Helper: `finalize` fails exactly on empty accumulated content, and the error is
the fixed message. -/
lemma finalize_error_iff (st : StreamingAnalyzer) :
    (∃ e, st.finalize = Except.error e) ↔ st.total_content = [] := by
  unfold StreamingAnalyzer.finalize
  split
  · rename_i he; exact ⟨fun _ => he, fun _ => ⟨_, rfl⟩⟩
  · rename_i he
    constructor
    · rintro ⟨e, hfe⟩; exact absurd hfe (by simp)
    · intro hc; exact absurd hc he

/-- Claim C2 counterexample: the stream `"cd"`, partitioned as one chunk
versus two chunks that split the word, yields different `top_words` — the
per-chunk tokenizer splits the word at the boundary. -/
theorem C2_counterexample :
    (processChunks (StreamingAnalyzer.new defaultConfig) ["cd".data]).map
      (fun st => st.finalize.toOption.map (fun r => r.top_words)) =
      some (some [("cd".data, 1)]) ∧
    (processChunks (StreamingAnalyzer.new defaultConfig)
        ["c".data, "d".data]).map
      (fun st => st.finalize.toOption.map (fun r => r.top_words)) =
      some (some [("c".data, 1), ("d".data, 1)]) ∧
    some (some [("cd".data, 1)]) ≠
      some (some [("c".data, 1), ("d".data, 1)]) :=
  ⟨rfl, rfl, by decide⟩

/-- Claim C2 (amended): the accumulated content — hence the entropy, which
is computed from the concatenation at finalize time — depends only on the
concatenated stream, independent of chunk boundaries; `top_words` does not
(see the counterexample: a boundary inside a word splits the token). -/
theorem C2_amended (cfg : StreamingConfig) (A B : List (List Char))
    (hAB : A.flatten = B.flatten) (stA stB : StreamingAnalyzer)
    (hA : processChunks (StreamingAnalyzer.new cfg) A = some stA)
    (hB : processChunks (StreamingAnalyzer.new cfg) B = some stB) :
    stA.total_content = stB.total_content ∧
    stA.calculate_entropy stA.total_content =
      stB.calculate_entropy stB.total_content ∧
    (∀ rA rB, stA.finalize = Except.ok rA → stB.finalize = Except.ok rB →
      rA.entropy = rB.entropy) := by
  have hca := (processChunks_content hA).1
  have hcb := (processChunks_content hB).1
  have hcontent : stA.total_content = stB.total_content := by
    rw [hca, hcb]
    simp [StreamingAnalyzer.new, hAB]
  refine ⟨hcontent, by rw [hcontent]; rfl, ?_⟩
  intro rA rB hfA hfB
  have ha := (finalize_ok hfA).2.2.2.2.1
  have hb := (finalize_ok hfB).2.2.2.2.1
  rw [ha, hb, hcontent]; rfl

/-- Claim C2 witness: the amended theorem applied to the two concrete
partitions `["cd"]` and `["c", "d"]` of the stream `"cd"`. -/
theorem C2_witness :
    (["cd".data].flatten = ["c".data, "d".data].flatten) ∧
    (processChunks (StreamingAnalyzer.new defaultConfig) ["cd".data] =
      some ⟨defaultConfig, [("cd".data, 1)], 1, "cd".data, [], []⟩) ∧
    (processChunks (StreamingAnalyzer.new defaultConfig)
        ["c".data, "d".data] =
      some ⟨defaultConfig, [("c".data, 1), ("d".data, 1)], 2, "cd".data,
        [], []⟩) ∧
    ((⟨defaultConfig, [("cd".data, 1)], 1, "cd".data, [],
        []⟩ : StreamingAnalyzer).total_content =
      (⟨defaultConfig, [("c".data, 1), ("d".data, 1)], 2, "cd".data, [],
        []⟩ : StreamingAnalyzer).total_content) :=
  ⟨by decide, rfl, rfl,
    (C2_amended defaultConfig ["cd".data] ["c".data, "d".data] (by decide)
      ⟨defaultConfig, [("cd".data, 1)], 1, "cd".data, [], []⟩
      ⟨defaultConfig, [("c".data, 1), ("d".data, 1)], 2, "cd".data, [], []⟩
      rfl rfl).1⟩

/-- Claim C3 counterexample: the streaming per-chunk scan has no
word-boundary check, so the chunk `"confidentialword"` yields one match for
`"confidential"` (at position 0) where the claim demands zero for every
entry point. -/
theorem C3_counterexample :
    (StreamingAnalyzer.new defaultConfig).detect_banned_phrases_in_chunk
      "confidentialword".data =
      some [⟨"confidential".data, 0, "confidentialword".data,
        "high".data⟩] ∧
    some [⟨"confidential".data, 0, "confidentialword".data, "high".data⟩] ≠
      some ([] : List BannedPhraseMatch) :=
  ⟨rfl, by decide⟩

/-- Claim C3 (amended): `detect_banned_phrases` (phrases.rs) performs the
word-boundary check and satisfies both concrete examples — zero matches on
`"confidentialword"`, exactly one match at position 8 on
`"This is confidential."` — while the streaming per-chunk scan performs a
plain substring search and reports `"confidentialword"` as a match at
position 0. -/
theorem C3_amended :
    detect_banned_phrases "confidentialword".data = some [] ∧
    detect_banned_phrases "This is confidential.".data =
      some [⟨"confidential".data, 8, "This is confidential.".data,
        "high".data⟩] ∧
    (StreamingAnalyzer.new defaultConfig).detect_banned_phrases_in_chunk
      "confidentialword".data =
      some [⟨"confidential".data, 0, "confidentialword".data,
        "high".data⟩] :=
  ⟨rfl, rfl, rfl⟩

/-- Claim C9 counterexample: occurrences of a token processed while it was a
stopword were never counted (stopwords also filter at insertion time), so
removing the token from the stopwords via `update_config` does NOT make it
reappear in `top_words` with its counts. -/
theorem C9_counterexample :
    (processChunks (StreamingAnalyzer.new
        { defaultConfig with stopwords := ["zebra".data] })
        ["zebra zebra".data]).map
      (fun st => (st.update_config defaultConfig).finalize.toOption.map
        (fun r => r.top_words)) = some (some []) ∧
    some (some ([] : List (List Char × Nat))) ≠
      some (some [("zebra".data, 2)]) :=
  ⟨rfl, by decide⟩

/-- Claim C9 (amended): `update_config` always succeeds and replaces only
the configuration, leaving all accumulated state untouched; `finalize`
filters the accumulated counts by the NEW stopword set, so tokens newly
added to the stopwords disappear from `top_words`; but since `process_chunk`
also filters by the stopwords current at insertion time, occurrences counted
while a token was a stopword are lost forever — removing the stopword later
does not restore them (see the counterexample). -/
theorem C9_amended :
    (∀ (st : StreamingAnalyzer) (cfg : StreamingConfig),
      (st.update_config cfg).config = cfg ∧
      (st.update_config cfg).word_counts = st.word_counts ∧
      (st.update_config cfg).total_chunks = st.total_chunks ∧
      (st.update_config cfg).total_content = st.total_content ∧
      (st.update_config cfg).banned_phrase_matches =
        st.banned_phrase_matches ∧
      (st.update_config cfg).pii_patterns = st.pii_patterns) ∧
    ((processChunks (StreamingAnalyzer.new defaultConfig)
        ["zebra zebra".data]).map
      (fun st => (st.update_config
        { defaultConfig with stopwords := ["zebra".data] }).finalize.toOption.map
        (fun r => r.top_words)) = some (some [])) ∧
    ((processChunks (StreamingAnalyzer.new defaultConfig)
        ["zebra zebra".data]).map
      (fun st => st.finalize.toOption.map (fun r => r.top_words)) =
      some (some [("zebra".data, 2)])) :=
  ⟨fun _ _ => ⟨rfl, rfl, rfl, rfl, rfl, rfl⟩, rfl, rfl⟩

/-- Claim C5: `finalize` computes
`risk_score = 0.4*banned_score + 0.3*pii_score + 0.2*entropy_score` with
`banned_score`/`pii_score` the emptiness indicators of the recorded matches
and `entropy_score = 1.0` above the threshold, `entropy/threshold` below;
the decision is `"block"` exactly when `risk_score ≥ risk_threshold`, and
`"allow"` otherwise. -/
theorem C5_risk_formula (st : StreamingAnalyzer)
    (h : st.total_content ≠ []) :
    ∃ r, st.finalize = Except.ok r ∧
      r.risk_score =
        0.4 * (if st.banned_phrase_matches = [] then (0.0 : ℝ) else 1.0) +
        0.3 * (if st.pii_patterns = [] then (0.0 : ℝ) else 1.0) +
        0.2 * (if st.config.entropy_threshold <
                 st.calculate_entropy st.total_content then (1.0 : ℝ)
               else st.calculate_entropy st.total_content /
                 st.config.entropy_threshold) ∧
      (r.decision = "block".data ↔ st.config.risk_threshold ≤ r.risk_score) ∧
      (r.decision = "allow".data ↔
        ¬ st.config.risk_threshold ≤ r.risk_score) := by
  cases hf : st.finalize with
  | error e =>
    exact absurd ((finalize_error_iff st).mp ⟨e, hf⟩) h
  | ok r =>
    rcases finalize_ok hf with ⟨-, -, -, -, hent, hrisk, hdec⟩
    refine ⟨r, rfl, ?_, ?_, ?_⟩
    · rw [hrisk, hent]
      unfold StreamingAnalyzer.calculate_risk_score
      ring
    · rw [hdec]
      split
      · rename_i hc; exact ⟨fun _ => hc, fun _ => rfl⟩
      · rename_i hc
        exact ⟨fun hb => absurd hb (by decide), fun hc' => absurd hc' hc⟩
    · rw [hdec]
      split
      · rename_i hc
        exact ⟨fun hb => absurd hb (by decide), fun hc' => absurd hc hc'⟩
      · rename_i hc; exact ⟨fun _ => hc, fun _ => rfl⟩

/-- Claim C5 witness: the formula at a concrete one-chunk state. -/
theorem C5_witness :
    ((⟨defaultConfig, [("cd".data, 1)], 1, "cd".data, [],
        []⟩ : StreamingAnalyzer).total_content ≠ []) ∧
    (∃ r, (⟨defaultConfig, [("cd".data, 1)], 1, "cd".data, [],
        []⟩ : StreamingAnalyzer).finalize = Except.ok r ∧
      r.risk_score =
        0.4 * (0.0 : ℝ) + 0.3 * (0.0 : ℝ) +
        0.2 * (if (4.8 : ℝ) <
                 (⟨defaultConfig, [("cd".data, 1)], 1, "cd".data, [],
                   []⟩ : StreamingAnalyzer).calculate_entropy "cd".data
               then (1.0 : ℝ)
               else (⟨defaultConfig, [("cd".data, 1)], 1, "cd".data, [],
                 []⟩ : StreamingAnalyzer).calculate_entropy "cd".data /
                 (4.8 : ℝ)) ∧
      (r.decision = "block".data ↔ (0.6 : ℝ) ≤ r.risk_score) ∧
      (r.decision = "allow".data ↔ ¬ (0.6 : ℝ) ≤ r.risk_score)) :=
  ⟨by decide, C5_risk_formula _ (by decide)⟩

/-- Claim C7: a freshly constructed analyzer's `finalize` fails with the
empty-stream error; after any successful run, `finalize` fails exactly when
no chunk was processed or no byte was accumulated, and succeeds as soon as
the processed chunks contain at least one byte. -/
theorem C7_empty_stream :
    StreamingAnalyzer.finalize (StreamingAnalyzer.new defaultConfig) =
      Except.error "No content processed".data ∧
    (∀ cfg chunks st,
      processChunks (StreamingAnalyzer.new cfg) chunks = some st →
      ((∃ e, st.finalize = Except.error e) ↔
        (st.total_chunks = 0 ∨ byteLen st.total_content = 0))) ∧
    (∀ cfg chunks st,
      processChunks (StreamingAnalyzer.new cfg) chunks = some st →
      chunks.flatten ≠ [] → ∃ r, st.finalize = Except.ok r) := by
  refine ⟨rfl, ?_, ?_⟩
  · intro cfg chunks st h
    rcases processChunks_content h with ⟨hc, hn, -⟩
    rw [finalize_error_iff]
    constructor
    · intro hempty
      right
      rw [hempty]
      rfl
    · rintro (h0 | h0)
      · rw [hn] at h0
        simp only [StreamingAnalyzer.new] at h0
        have : chunks = [] := List.length_eq_zero.mp (by omega)
        rw [hc, this]
        rfl
      · exact (byteLen_eq_zero _).mp h0
  · intro cfg chunks st h hne
    rcases processChunks_content h with ⟨hc, -, -⟩
    have hcne : st.total_content ≠ [] := by
      rw [hc]
      simpa [StreamingAnalyzer.new] using hne
    cases hf : st.finalize with
    | error e => exact absurd ((finalize_error_iff st).mp ⟨e, hf⟩) hcne
    | ok r => exact ⟨r, rfl⟩

/-- Claim C7 witness: the equivalence and the success case at a concrete
run of one non-empty chunk. -/
theorem C7_witness :
    (processChunks (StreamingAnalyzer.new defaultConfig) ["cd".data] =
      some ⟨defaultConfig, [("cd".data, 1)], 1, "cd".data, [], []⟩) ∧
    (["cd".data].flatten ≠ []) ∧
    (∃ r, (⟨defaultConfig, [("cd".data, 1)], 1, "cd".data, [],
      []⟩ : StreamingAnalyzer).finalize = Except.ok r) :=
  ⟨rfl, by decide, C7_empty_stream.2.2 defaultConfig ["cd".data] _ rfl
    (by decide)⟩

/-- Claim C4 counterexample: the PII matches accumulated by
`process_chunk` come from the single `\b\d{9,12}\b` regex and are tagged
`"numeric"` — a kind outside the claim's five typed detectors. -/
theorem C4_counterexample :
    (processChunks (StreamingAnalyzer.new defaultConfig)
        ["123456789".data]).map (fun st => st.pii_patterns) =
      some [⟨"numeric".data, "123456789".data, 0, 0.8⟩] ∧
    "numeric".data ∉ ["phone".data, "ssn".data, "credit_card".data,
      "ip_address".data, "email".data] :=
  ⟨rfl, by decide⟩

/-- Claim C4 (amended): `detect_pii_patterns` (pii.rs) classifies every
match into the five typed kinds; the streaming analyzer instead tags every
accumulated match `"numeric"` with fixed confidence 0.8, appending them
per chunk. -/
theorem C4_amended :
    (∀ text m, m ∈ detect_pii_patterns text →
      m.type_ ∈ ["phone".data, "ssn".data, "credit_card".data,
        "ip_address".data, "email".data]) ∧
    (∀ (st : StreamingAnalyzer) chunk m,
      m ∈ st.detect_pii_patterns_in_chunk chunk →
      m.type_ = "numeric".data ∧ m.confidence = 0.8) ∧
    (∀ (st : StreamingAnalyzer) chunk st',
      st.process_chunk chunk = some st' →
      st'.pii_patterns =
        st.pii_patterns ++ st.detect_pii_patterns_in_chunk chunk) := by
  refine ⟨?_, ?_, ?_⟩
  · intro text m hm
    unfold detect_pii_patterns at hm
    simp only [List.mem_append, List.mem_map, List.mem_filter] at hm
    rcases hm with ((((⟨a, -, rfl⟩ | ⟨a, -, rfl⟩) | ⟨a, -, rfl⟩) |
      ⟨a, -, rfl⟩) | ⟨a, -, rfl⟩) <;> simp
  · intro st chunk m hm
    unfold StreamingAnalyzer.detect_pii_patterns_in_chunk at hm
    simp only [List.mem_map] at hm
    rcases hm with ⟨a, -, rfl⟩
    exact ⟨rfl, rfl⟩
  · intro st chunk st' h
    rcases process_chunk_spec h with ⟨ms, -, -, -, -, -, hp, -⟩
    exact hp

/-- Claim C4 witness: amended theorem applied to the concrete numeric match
of the chunk `"123456789"`. -/
theorem C4_witness :
    ((⟨"numeric".data, "123456789".data, 0, 0.8⟩ : PIIPattern) ∈
      (StreamingAnalyzer.new defaultConfig).detect_pii_patterns_in_chunk
        "123456789".data) ∧
    ((⟨"numeric".data, "123456789".data, 0, 0.8⟩ : PIIPattern).type_ =
      "numeric".data ∧
    (⟨"numeric".data, "123456789".data, 0, 0.8⟩ : PIIPattern).confidence =
      0.8) := by
  have hmem : (⟨"numeric".data, "123456789".data, 0, 0.8⟩ : PIIPattern) ∈
      (StreamingAnalyzer.new defaultConfig).detect_pii_patterns_in_chunk
        "123456789".data :=
    List.mem_singleton.mpr rfl
  exact ⟨hmem, C4_amended.2.1 _ _ _ hmem⟩

/-! ### Totality and transitivity of the frequency comparator -/

lemma charListLe_total : ∀ a b : List Char,
    charListLe a b = true ∨ charListLe b a = true := by
  intro a
  induction a with
  | nil => intro b; left; rfl
  | cons x s ih =>
    intro b
    cases b with
    | nil => right; rfl
    | cons y t =>
      by_cases hxy : x < y
      · left; simp [charListLe, hxy]
      · by_cases hyx : y < x
        · right; simp [charListLe, hyx]
        · rcases ih t with h | h
          · left; simp [charListLe, hxy, hyx, h]
          · right; simp [charListLe, hxy, hyx, h]

lemma charListLe_trans : ∀ a b c : List Char, charListLe a b = true →
    charListLe b c = true → charListLe a c = true := by
  intro a
  induction a with
  | nil => intro b c _ _; rfl
  | cons x s ih =>
    intro b c hab hbc
    cases b with
    | nil => exact absurd hab (by simp [charListLe])
    | cons y t =>
      cases c with
      | nil => exact absurd hbc (by simp [charListLe])
      | cons z u =>
        simp only [charListLe] at hab hbc ⊢
        by_cases hxy : x < y
        · by_cases hyz : y < z
          · have hxz : x < z := lt_trans hxy hyz
            simp [hxz]
          · by_cases hzy : z < y
            · rw [if_neg hyz, if_pos hzy] at hbc
              exact absurd hbc (by simp)
            · have hyz' : y = z :=
                le_antisymm (not_lt.mp hzy) (not_lt.mp hyz)
              have hxz : x < z := hyz' ▸ hxy
              simp [hxz]
        · by_cases hyx : y < x
          · rw [if_neg hxy, if_pos hyx] at hab
            exact absurd hab (by simp)
          · have hxy' : x = y := le_antisymm (not_lt.mp hyx) (not_lt.mp hxy)
            rw [if_neg hxy, if_neg hyx] at hab
            by_cases hyz : y < z
            · have hxz : x < z := hxy' ▸ hyz
              simp [hxz]
            · by_cases hzy : z < y
              · rw [if_neg hyz, if_pos hzy] at hbc
                exact absurd hbc (by simp)
              · have hyz' : y = z :=
                  le_antisymm (not_lt.mp hzy) (not_lt.mp hyz)
                rw [if_neg hyz, if_neg hzy] at hbc
                have hxz : ¬ x < z := by
                  rw [hxy', hyz']; exact lt_irrefl z
                have hzx : ¬ z < x := by
                  rw [hxy', hyz']; exact lt_irrefl z
                rw [if_neg hxz, if_neg hzx]
                exact ih t u hab hbc
instance : IsTotal (List Char × Nat) freqRel :=
  ⟨by
    intro a b
    unfold freqRel
    rcases Nat.lt_trichotomy a.2 b.2 with h | h | h
    · right; left; exact h
    · rcases charListLe_total a.1 b.1 with hle | hle
      · left; right; exact ⟨h.symm, hle⟩
      · right; right; exact ⟨h, hle⟩
    · left; left; exact h⟩

instance : IsTrans (List Char × Nat) freqRel :=
  ⟨by
    intro a b c hab hbc
    unfold freqRel at *
    rcases hab with h1 | ⟨h1, h1'⟩ <;> rcases hbc with h2 | ⟨h2, h2'⟩
    · left; omega
    · left; omega
    · left; omega
    · right; exact ⟨h2.trans h1, charListLe_trans _ _ _ h1' h2'⟩⟩

/-- Claim C6 counterexample: `finalize`'s `top_words` sort compares counts
only; on the tie `"zebra apple banana"` the streaming result keeps map
order (`zebra, apple, banana` in the model's insertion-order refinement of
the unordered `HashMap`), not the claimed alphabetical order. -/
theorem C6_counterexample :
    (processChunks (StreamingAnalyzer.new defaultConfig)
        ["zebra apple banana".data]).map
      (fun st => st.finalize.toOption.map (fun r => r.top_words)) =
      some (some [("zebra".data, 1), ("apple".data, 1),
        ("banana".data, 1)]) ∧
    some (some [("zebra".data, 1), ("apple".data, 1), ("banana".data, 1)]) ≠
      some (some [("apple".data, 1), ("banana".data, 1),
        ("zebra".data, 1)]) :=
  ⟨rfl, by decide⟩

/-- Claim C6 (amended): `analyze_word_frequency` does sort by count
descending with ties broken by ascending token order — a total order; its
output is sorted under that order, truncated to `max_words`, and the
`"zebra apple banana"` example yields the alphabetical tie-break.  The
`top_words` of `StreamingAnalyzer::finalize` sort by count only and do not
tie-break (see the counterexample). -/
theorem C6_amended :
    (∀ text mw, List.Sorted freqRel (analyze_word_frequency text mw) ∧
      (analyze_word_frequency text mw).length ≤ mw) ∧
    analyze_word_frequency "zebra apple banana".data 3 =
      [("apple".data, 1), ("banana".data, 1), ("zebra".data, 1)] := by
  constructor
  · intro text mw
    constructor
    · unfold analyze_word_frequency
      exact List.Pairwise.sublist (List.take_sublist _ _)
        (List.sorted_insertionSort freqRel _)
    · unfold analyze_word_frequency
      simp
  · rfl

/-- Claim C8: credit-card confidence is 0.95 for a 16-digit payload passing
the Luhn checksum, 0.7 for a failing one, 0.5 otherwise; every
`credit_card`-typed match of `detect_pii_patterns` carries exactly this
confidence of its matched text, and `"4532015112830366"` yields one
credit-card match whose confidence 0.95 exceeds 0.9. -/
theorem C8_luhn_confidence :
    (∀ card, calculate_credit_card_confidence card =
      if (card.filter Char.isDigit).length = 16 then
        (if luhn_check (card.filter Char.isDigit) then (0.95 : ℚ) else 0.7)
      else 0.5) ∧
    (∀ text m, m ∈ detect_pii_patterns text →
      m.type_ = "credit_card".data →
      m.confidence = calculate_credit_card_confidence m.pattern) ∧
    detect_pii_patterns "4532015112830366".data =
      [⟨"credit_card".data, "4532015112830366".data, 0, 0.95⟩] ∧
    luhn_check "4532015112830366".data = true ∧
    (0.9 : ℚ) < 0.95 := by
  refine ⟨fun _ => rfl, ?_, rfl, rfl, by norm_num⟩
  intro text m hm ht
  unfold detect_pii_patterns at hm
  simp only [List.mem_append, List.mem_map, List.mem_filter] at hm
  rcases hm with ((((⟨a, -, rfl⟩ | ⟨a, -, rfl⟩) | ⟨a, -, rfl⟩) |
    ⟨a, -, rfl⟩) | ⟨a, -, rfl⟩)
  · simp at ht
  · simp at ht
  · rfl
  · simp at ht
  · simp at ht

/-- Claim C8 witness: the confidence link applied to the concrete
credit-card match of `"4532015112830366"`. -/
theorem C8_witness :
    ((⟨"credit_card".data, "4532015112830366".data, 0, 0.95⟩ : PIIPattern) ∈
      detect_pii_patterns "4532015112830366".data) ∧
    ((⟨"credit_card".data, "4532015112830366".data, 0,
        0.95⟩ : PIIPattern).type_ = "credit_card".data) ∧
    ((⟨"credit_card".data, "4532015112830366".data, 0,
        0.95⟩ : PIIPattern).confidence =
      calculate_credit_card_confidence "4532015112830366".data) := by
  have hmem : (⟨"credit_card".data, "4532015112830366".data, 0,
      0.95⟩ : PIIPattern) ∈ detect_pii_patterns "4532015112830366".data :=
    List.mem_singleton.mpr rfl
  exact ⟨hmem, rfl, C8_luhn_confidence.2.1 _ _ hmem rfl⟩

/-! ### ASCII safety of the two phrase scanners (claim C10) -/

def isAsciiChar (c : Char) : Bool := c.val ≤ 127

def asciiOnly (s : List Char) : Bool := s.all isAsciiChar

lemma asciiOnly_cons {c : Char} {t : List Char} :
    asciiOnly (c :: t) = true ↔
    isAsciiChar c = true ∧ asciiOnly t = true := by
  simp [asciiOnly]

lemma charOfNat_le (m : Nat) (hm : m ≤ 127) : (Char.ofNat m).val ≤ 127 := by
  unfold Char.ofNat
  split
  · rename_i h
    unfold Char.ofNatAux
    rw [UInt32.le_def, BitVec.le_def]
    simpa using hm
  · decide

lemma charBytes_of_ascii {c : Char} (h : isAsciiChar c = true) :
    charBytes c = 1 := by
  have hv : c.val ≤ 127 := of_decide_eq_true h
  unfold charBytes
  rw [if_pos hv]

lemma toNat_le_of_ascii {c : Char} (h : isAsciiChar c = true) :
    c.toNat ≤ 127 := by
  have hv : c.val ≤ 127 := of_decide_eq_true h
  rw [UInt32.le_def, BitVec.le_def] at hv
  simpa [Char.toNat] using hv

lemma rustCharLower_ascii {c : Char} (h : isAsciiChar c = true) :
    ∃ d, rustCharLower c = [d] ∧ isAsciiChar d = true := by
  have hv : c.val ≤ 127 := of_decide_eq_true h
  unfold rustCharLower
  split
  · rename_i hc
    rw [hc] at hv
    exact absurd hv (by decide)
  · split
    · rename_i hr
      refine ⟨_, rfl, decide_eq_true ?_⟩
      exact charOfNat_le _ (by have := hr.2; omega)
    · exact ⟨c, rfl, h⟩

lemma rustToLowercase_ascii {s : List Char} (h : asciiOnly s = true) :
    asciiOnly (rustToLowercase s) = true ∧
    (rustToLowercase s).length = s.length := by
  induction s with
  | nil => exact ⟨rfl, rfl⟩
  | cons c t ih =>
    rw [asciiOnly_cons] at h
    rcases rustCharLower_ascii h.1 with ⟨d, hd, hda⟩
    have iht := ih h.2
    unfold rustToLowercase at iht ⊢
    rw [List.flatMap_cons, hd]
    constructor
    · simp only [List.cons_append, List.nil_append]
      rw [asciiOnly_cons]
      exact ⟨hda, iht.1⟩
    · simp only [List.cons_append, List.nil_append, List.length_cons]
      rw [iht.2]

lemma byteLen_of_ascii {s : List Char} (h : asciiOnly s = true) :
    byteLen s = s.length := by
  induction s with
  | nil => rfl
  | cons c t ih =>
    rw [asciiOnly_cons] at h
    simp only [byteLen, List.length_cons, charBytes_of_ascii h.1, ih h.2]
    omega

lemma byteLen_pos {s : List Char} (h : s ≠ []) : 1 ≤ byteLen s := by
  cases s with
  | nil => exact absurd rfl h
  | cons c t =>
    simp only [byteLen]
    have := charBytes_pos c
    omega

lemma byteDrop_ascii {s : List Char} :
    ∀ n, asciiOnly s = true → n ≤ s.length →
    ∃ t, byteDrop s n = some t ∧ asciiOnly t = true ∧
      t.length = s.length - n := by
  induction s with
  | nil =>
    intro n _ hn
    have hn0 : n = 0 := by simpa using hn
    subst hn0
    exact ⟨[], rfl, rfl, rfl⟩
  | cons c t ih =>
    intro n h hn
    rw [asciiOnly_cons] at h
    cases n with
    | zero =>
      refine ⟨c :: t, rfl, ?_, rfl⟩
      rw [asciiOnly_cons]
      exact ⟨h.1, h.2⟩
    | succ m =>
      have hcb := charBytes_of_ascii h.1
      rcases ih m h.2 (by simpa using hn) with ⟨u, hu, hua, hul⟩
      refine ⟨u, ?_, hua, by simp [hul]⟩
      simp only [byteDrop, hcb]
      rw [if_neg (by omega)]
      simpa using hu

lemma byteTake_ascii {s : List Char} :
    ∀ n, asciiOnly s = true → n ≤ s.length →
    ∃ t, byteTake s n = some t := by
  induction s with
  | nil =>
    intro n _ hn
    have hn0 : n = 0 := by simpa using hn
    subst hn0
    exact ⟨[], rfl⟩
  | cons c t ih =>
    intro n h hn
    rw [asciiOnly_cons] at h
    cases n with
    | zero => exact ⟨[], rfl⟩
    | succ m =>
      have hcb := charBytes_of_ascii h.1
      rcases ih m h.2 (by simpa using hn) with ⟨u, hu⟩
      refine ⟨c :: u, ?_⟩
      simp only [byteTake, hcb]
      rw [if_neg (by omega)]
      simp [hu]

lemma byteSlice_ascii {s : List Char} {a b : Nat} (h : asciiOnly s = true)
    (hab : a ≤ b) (hb : b ≤ s.length) :
    (byteSlice s a b).isSome = true := by
  unfold byteSlice
  rw [if_pos hab]
  rcases byteDrop_ascii a h (le_trans hab hb) with ⟨t, ht, hta, htl⟩
  rcases byteTake_ascii (b - a) hta (by omega) with ⟨u, hu⟩
  rw [ht]
  simp [hu]

/-- On an all-ASCII chunk the streaming phrase scan never panics: every
byte offset it slices at is in range and on a character boundary. -/
lemma scanChunkPhrase_ascii_safe (chunk phrase : List Char)
    (hchunk : asciiOnly chunk = true) :
    ∀ fuel start rem, asciiOnly rem = true →
      start + byteLen rem = byteLen (rustToLowercase chunk) →
      (scanChunkPhrase chunk phrase fuel start rem).isSome = true := by
  have hlower := rustToLowercase_ascii hchunk
  have hlowlen : byteLen (rustToLowercase chunk) = chunk.length := by
    rw [byteLen_of_ascii hlower.1, hlower.2]
  have hchunklen : byteLen chunk = chunk.length := byteLen_of_ascii hchunk
  intro fuel
  induction fuel with
  | zero => intro start rem _ _; rfl
  | succ f ih =>
    intro start rem hrem hinv
    simp only [scanChunkPhrase]
    split
    · rfl
    · cases hfind : findSub rem phrase with
      | none => rfl
      | some pos =>
        dsimp only
        have hfb := findSub_bound hfind
        have hremlen : byteLen rem = rem.length := byteLen_of_ascii hrem
        have hsp : start + pos + byteLen phrase ≤ byteLen chunk := by
          rw [hchunklen, ← hlowlen]
          omega
        obtain ⟨ctx, hctx⟩ : ∃ ctx, byteSlice chunk (start + pos - 20)
            (min (start + pos + byteLen phrase + 20) (byteLen chunk)) =
            some ctx := by
          apply Option.isSome_iff_exists.mp
          apply byteSlice_ascii hchunk
          · refine le_min (by omega) ?_
            omega
          · rw [← hchunklen]
            exact min_le_right _ _
        obtain ⟨rem', hrem', hrema, hremlen'⟩ :=
          byteDrop_ascii (pos + byteLen phrase) hrem (by omega)
        rw [hctx, hrem']
        simp only [Option.some_bind, Option.isSome_map']
        apply ih _ _ hrema
        have hlen' : byteLen rem' = rem'.length := byteLen_of_ascii hrema
        omega

lemma detectChunkLoop_ascii_safe (chunk : List Char)
    (hchunk : asciiOnly chunk = true) :
    ∀ ps, (detectChunkLoop chunk ps).isSome = true := by
  intro ps
  induction ps with
  | nil => rfl
  | cons p rest ih =>
    simp only [detectChunkLoop]
    have hlower := rustToLowercase_ascii hchunk
    have hs := scanChunkPhrase_ascii_safe chunk p hchunk
      ((rustToLowercase chunk).length + 1) 0 (rustToLowercase chunk)
      hlower.1 (by simp)
    obtain ⟨ms, hms⟩ := Option.isSome_iff_exists.mp hs
    obtain ⟨rest', hrest⟩ := Option.isSome_iff_exists.mp ih
    rw [hms, hrest]
    rfl

/-- On an all-ASCII text the phrases.rs scan never panics. -/
lemma scanTextPhrase_ascii_safe (text phraseOrig phraseLower : List Char)
    (htext : asciiOnly text = true)
    (hlen : byteLen phraseOrig = byteLen phraseLower)
    (hpl : phraseLower ≠ []) :
    ∀ fuel start rem, asciiOnly rem = true →
      start + byteLen rem = byteLen (rustToLowercase text) →
      (scanTextPhrase text (rustToLowercase text) phraseOrig phraseLower
        fuel start rem).isSome = true := by
  have hlower := rustToLowercase_ascii htext
  have hlowlen : byteLen (rustToLowercase text) = text.length := by
    rw [byteLen_of_ascii hlower.1, hlower.2]
  have htextlen : byteLen text = text.length := byteLen_of_ascii htext
  have hpllen : 1 ≤ byteLen phraseLower := byteLen_pos hpl
  intro fuel
  induction fuel with
  | zero => intro start rem _ _; rfl
  | succ f ih =>
    intro start rem hrem hinv
    simp only [scanTextPhrase]
    cases hfind : findSub rem phraseLower with
    | none => rfl
    | some pos =>
      dsimp only
      have hfb := findSub_bound hfind
      have hremlen : byteLen rem = rem.length := byteLen_of_ascii hrem
      have hsp : start + pos + byteLen phraseOrig ≤ byteLen text := by
        rw [htextlen, ← hlowlen, hlen]
        omega
      obtain ⟨rem', hrem', hrema, hremlen'⟩ :=
        byteDrop_ascii (pos + 1) hrem (by omega)
      have hrec : (scanTextPhrase text (rustToLowercase text) phraseOrig
          phraseLower f (start + pos + 1) rem').isSome = true := by
        apply ih _ _ hrema
        have hlen' : byteLen rem' = rem'.length := byteLen_of_ascii hrema
        omega
      obtain ⟨ms', hms'⟩ := Option.isSome_iff_exists.mp hrec
      by_cases hcond : (boundaryCharOk (if 0 < start + pos then
            (rustToLowercase text).get? (start + pos - 1) else none) &&
          boundaryCharOk ((rustToLowercase text).get?
            (start + pos + byteLen phraseOrig))) = true
      case pos =>
        rw [if_pos hcond]
        obtain ⟨ctx, hctx⟩ : ∃ ctx, byteSlice text (start + pos - 20)
            (min (start + pos + byteLen phraseOrig + 20) (byteLen text)) =
            some ctx := by
          apply Option.isSome_iff_exists.mp
          apply byteSlice_ascii htext
          · exact le_min (by omega) (by omega)
          · rw [← htextlen]
            exact min_le_right _ _
        obtain ⟨seg, hseg⟩ : ∃ seg, byteSlice (rustToLowercase text)
            (start + pos) (start + pos + byteLen phraseOrig) = some seg := by
          apply Option.isSome_iff_exists.mp
          apply byteSlice_ascii hlower.1
          · omega
          · rw [hlower.2]
            rw [htextlen] at hsp
            exact hsp
        rw [hctx, hseg, hrem']
        simp only [Option.some_bind, Option.isSome_map']
        exact hrec
      case neg =>
        rw [if_neg hcond]
        rw [hrem']
        simp only [Option.some_bind]
        exact hrec

lemma detectTextLoop_ascii_safe (text : List Char)
    (htext : asciiOnly text = true) :
    ∀ ps, (∀ p ∈ ps, byteLen p = byteLen (rustToLowercase p) ∧
      rustToLowercase p ≠ []) →
    (detectTextLoop text ps).isSome = true := by
  intro ps
  induction ps with
  | nil => intro _; rfl
  | cons p rest ih =>
    intro hps
    simp only [detectTextLoop]
    have hlower := rustToLowercase_ascii htext
    have hp := hps p (List.mem_cons_self p rest)
    have hs := scanTextPhrase_ascii_safe text p (rustToLowercase p) htext
      hp.1 hp.2 ((rustToLowercase text).length + 1) 0 (rustToLowercase text)
      hlower.1 (by simp)
    obtain ⟨ms, hms⟩ := Option.isSome_iff_exists.mp hs
    obtain ⟨rest', hrest⟩ := Option.isSome_iff_exists.mp
      (ih (fun q hq => hps q (List.mem_cons_of_mem p hq)))
    rw [hms, hrest]
    rfl

/-- Claim C10 counterexample: both phrase scanners panic (modelled `none`)
on inputs whose lowercased form has a different byte length — the context
slice of the original text uses byte offsets computed on the lowercased
text, and lands inside a character.  `'ẞ'` (3 bytes) lowercases to `'ß'`
(2 bytes). -/
theorem C10_counterexample :
    (StreamingAnalyzer.new defaultConfig).detect_banned_phrases_in_chunk
      "ẞẞẞẞẞẞẞẞẞẞẞẞ confidential".data = none ∧
    detect_banned_phrases "ẞẞẞẞẞẞẞẞẞẞẞẞẞ confidential".data = none :=
  ⟨rfl, rfl⟩

/-- Claim C10 (amended): for chunks consisting solely of ASCII characters
(with non-empty configured phrases in the streaming case — the source loops
forever on an empty phrase) both `detect_banned_phrases` and the streaming
per-chunk scan return normally: every byte-offset slice is in bounds and on
a character boundary.  With multi-byte characters whose lowercased form
differs in byte length, the context slice can fall inside a character and
panic (see the counterexample). -/
theorem C10_amended :
    (∀ (st : StreamingAnalyzer) (chunk : List Char),
      asciiOnly chunk = true →
      (∀ p ∈ st.config.banned_phrases, p ≠ []) →
      (st.detect_banned_phrases_in_chunk chunk).isSome = true) ∧
    (∀ text, asciiOnly text = true →
      (detect_banned_phrases text).isSome = true) := by
  constructor
  · intro st chunk hch _
    unfold StreamingAnalyzer.detect_banned_phrases_in_chunk
    exact detectChunkLoop_ascii_safe chunk hch _
  · intro text ht
    unfold detect_banned_phrases
    apply detectTextLoop_ascii_safe text ht
    intro p hp
    simp only [BANNED_PHRASES] at hp
    rcases List.mem_cons.mp hp with rfl | hp'
    · exact ⟨by decide, by decide⟩
    · rcases List.mem_cons.mp hp' with rfl | hp''
      · exact ⟨by decide, by decide⟩
      · simp at hp''

/-- Claim C10 witness: the safety statements applied at a concrete ASCII
input under the default configuration. -/
theorem C10_witness :
    (asciiOnly "safe text".data = true) ∧
    (∀ p ∈ (StreamingAnalyzer.new defaultConfig).config.banned_phrases,
      p ≠ []) ∧
    ((StreamingAnalyzer.new defaultConfig).detect_banned_phrases_in_chunk
      "safe text".data).isSome = true ∧
    (detect_banned_phrases "safe text".data).isSome = true :=
  ⟨by decide, by decide,
    C10_amended.1 _ _ (by decide) (by decide),
    C10_amended.2 _ (by decide)⟩
